import Mathlib

/-!
Verification of the Crawl, Parse & Validate Engine of
`src/BugsfreeMain/RadioStations-Worldwide.py` (class `M3UCollector`).

The Python source is shallowly embedded: string helpers mirror the Python
string/`urllib` operations actually used, the `defaultdict(list)` channel
store becomes an insertion-ordered association list, stateful methods become
explicit state-passing functions, network calls become oracles
(`String → List String` for fetched lines, probes for HEAD/GET status).
-/

/-! ## String helpers (Python `str` / `urllib.parse` / `os.path` operations) -/

/-- Python `str.lower()` (ASCII). -/
def pyLower (s : String) : String := String.mk (s.toList.map Char.toLower)

/-- Python `str.upper()` (ASCII). -/
def pyUpper (s : String) : String := String.mk (s.toList.map Char.toUpper)

/-- Python `str.strip()`: remove leading and trailing whitespace. -/
def pyStrip (s : String) : String :=
  String.mk (((s.toList.dropWhile Char.isWhitespace).reverse.dropWhile Char.isWhitespace).reverse)

/-- Python `str.startswith(pre)`. -/
def strStartsWith (s pre : String) : Bool := pre.toList.isPrefixOf s.toList

/-- Python `str.endswith(suf)`. -/
def strEndsWith (s suf : String) : Bool := suf.toList.reverse.isPrefixOf s.toList.reverse

/-- Suffix of `l` after the first occurrence of `pat` (`none` when absent).
Used for Python's substring containment test `pat in s`. -/
def findAfter : List Char → List Char → Option (List Char)
  | [], pat => if pat.isEmpty then some [] else none
  | l@(_ :: t), pat => if pat.isPrefixOf l then some (l.drop pat.length) else findAfter t pat

/-- Python `pat in s` (substring containment). -/
def containsSub (s pat : String) : Bool := (findAfter s.toList pat.toList).isSome

/-- Valid characters of a URL scheme, as accepted by `urllib.parse.urlparse`. -/
def isSchemeChar (c : Char) : Bool := c.isAlphanum || c == '+' || c == '-' || c == '.'

/-- Drop a leading `scheme:` (scheme must start with a letter), as `urlparse` does. -/
def stripScheme (l : List Char) : List Char :=
  match l.takeWhile isSchemeChar, l.dropWhile isSchemeChar with
  | c :: _, ':' :: r => if c.isAlpha then r else l
  | _, _ => l

/-- `urllib.parse.urlparse(s).path`: strip the scheme, strip a `//netloc`
component, and cut the remainder at the query/fragment separator. -/
def urlPathOf (s : String) : String :=
  let l := stripScheme s.toList
  let l := if l.take 2 = ['/', '/'] then
      (l.drop 2).dropWhile (fun c => c != '/' && c != '?' && c != '#')
    else l
  String.mk (l.takeWhile (fun c => c != '?' && c != '#'))

/-- Python `os.path.basename`: the part after the last `/`. -/
def basenameOf (s : String) : String :=
  String.mk ((s.toList.reverse.takeWhile (fun c => c != '/')).reverse)

/-- Python `str.isdigit()` for ASCII digit strings: nonempty and all digits. -/
def pyIsDigit (s : String) : Bool := !s.toList.isEmpty && s.toList.all Char.isDigit

/-- Value of an ASCII digit string, Python `int(s)` for `s.isdigit()` inputs. -/
def digitsToNat (s : String) : Nat := s.toList.foldl (fun n c => n * 10 + (c.toNat - 48)) 0

/-- Python `'\n'.join(lines)` as used by `fetch_content` (line 39). -/
def joinLines : List String → String
  | [] => ""
  | [x] => x
  | x :: t => x ++ "\n" ++ joinLines t

/-- Python `line.split('=', 1)` guarded by `'=' not in line` (lines 129-130):
`none` when the line has no `=`, otherwise key/value around the first `=`. -/
def splitOnceEq (s : String) : Option (String × String) :=
  let l := s.toList
  if l.contains '=' then
    some (String.mk (l.takeWhile (fun c => c != '=')),
          String.mk ((l.dropWhile (fun c => c != '=')).drop 1))
  else none

/-! ## Data model: Entry and Catalogue Store -/

/-- An Entry of the Catalogue Store: the `channel_info` dict built by the
parsers (lines 160-161, 187, 205, 217-218). -/
structure Channel where
  name : String
  logo : String
  group : String
  url : String
  source : String
deriving Repr, DecidableEq

/-- `self.default_logo` (line 20). -/
def defaultLogo : String := "https://buddytv.netlify.app/img/no-logo.png"

/-- The Catalogue Store `self.channels`, a `defaultdict(list)` from category
to insertion-ordered entries, modelled as an insertion-ordered association
list with unique keys. -/
abbrev Store := List (String × List Channel)

/-- `self.channels[g].append(ch)` on a `defaultdict(list)`: append to the
first matching key, or create the key at the end. -/
def storeAppend : Store → String → Channel → Store
  | [], g, ch => [(g, [ch])]
  | (k, l) :: t, g, ch =>
    if k = g then (k, l ++ [ch]) :: t else (k, l) :: storeAppend t g ch

/-- All `(category, entry)` pairs of the store in iteration order
(`for group, chans in channels.items(): for ch in chans`). -/
def storePairs : Store → List (String × Channel)
  | [] => []
  | (g, l) :: t => l.map (fun ch => (g, ch)) ++ storePairs t

/-- All stream URLs of the store in iteration order. -/
def storeUrls : Store → List String
  | [] => []
  | (_, l) :: t => l.map Channel.url ++ storeUrls t

/-- The mutable parse state shared by both parsers: the Catalogue Store
`self.channels` and the dedup set `self.seen_urls` (lines 19, 21). -/
structure ParseState where
  channels : Store
  seen : List String
deriving Repr, DecidableEq

/-- The guarded append both parsers use (lines 157-163, 202-207, 210-220):
`if url not in self.seen_urls: seen_urls.add(url); channels[group].append(ch)`. -/
def addChannelIfNew (ps : ParseState) (ch : Channel) : ParseState :=
  if ch.url ∈ ps.seen then ps
  else { channels := storeAppend ps.channels ch.group ch, seen := ps.seen ++ [ch.url] }

/-! ## M3U parser (`parse_and_store`, lines 168-224) -/

/-- Scan for `attr="value"` in a directive line, mirroring
`re.search(r'attr="([^"]*)"', line)`: the match needs a closing quote;
the scan restarts past an occurrence that lacks one. -/
def findAttrVal : List Char → List Char → Option (List Char)
  | [], _ => none
  | l@(_ :: t), pat =>
    if pat.isPrefixOf l then
      let rest := l.drop pat.length
      let v := rest.takeWhile (fun c => c != '"')
      if v.length < rest.length then some v else findAttrVal t pat
    else findAttrVal t pat

/-- `re.search(r',(.+)$', line)`: the text after the first comma that is
followed by at least one character. -/
def afterFirstComma : List Char → Option (List Char)
  | [] => none
  | ',' :: t => if t.isEmpty then none else some t
  | _ :: t => afterFirstComma t

/-- `re.sub(r'^\d+\.\s*\[[^\]]+\]\s*', '', name)` (line 186). -/
def stripNumBracket (l : List Char) : List Char :=
  match l.takeWhile Char.isDigit, l.dropWhile Char.isDigit with
  | [], _ => l
  | _ :: _, '.' :: r2 =>
    match (r2.dropWhile Char.isWhitespace) with
    | '[' :: r4 =>
      match r4.takeWhile (fun c => c != ']'), r4.dropWhile (fun c => c != ']') with
      | [], _ => l
      | _ :: _, ']' :: r6 => r6.dropWhile Char.isWhitespace
      | _, _ => l
    | _ => l
  | _, _ => l

/-- `re.sub(r'\s*\(GEO-BLOCKED\)$', '', name, flags=re.IGNORECASE)` (line 186). -/
def stripGeoBlocked (l : List Char) : List Char :=
  let r := l.reverse
  let pat := ("(GEO-BLOCKED)").toList.reverse.map Char.toLower
  if pat.isPrefixOf (r.map Char.toLower) then
    ((r.drop pat.length).dropWhile Char.isWhitespace).reverse
  else l

/-- The pending entry built from the most recent `#EXTINF:` line
(`current_channel_info`, lines 175-187; the `source` field is the
enclosing playlist and the `url` field is attached later). -/
structure Pending where
  name : String
  logo : String
  group : String
deriving Repr, DecidableEq

/-- Metadata extraction from an `#EXTINF:` line (lines 176-187). -/
def parseExtinf (line : String) : Pending :=
  let chars := line.toList
  let logo1 := match findAttrVal chars ("tvg-logo=\"").toList with
    | some v => if v.isEmpty then defaultLogo else String.mk v
    | none => defaultLogo
  let logo := if logo1 = defaultLogo then
      match findAttrVal chars ("radio-logo=\"").toList with
      | some v => String.mk v
      | none => match findAttrVal chars ("artUrl=\"").toList with
        | some v => String.mk v
        | none => logo1
    else logo1
  let group := match findAttrVal chars ("group-title=\"").toList with
    | some v => String.mk v
    | none => "Uncategorized"
  let name0 := match afterFirstComma chars with
    | some v => pyStrip (String.mk v)
    | none => "Unnamed Station"
  let name := String.mk (stripGeoBlocked (stripNumBracket name0.toList))
  { name := name, logo := logo, group := group }

/-- The playlist-vs-stream suffix test of the M3U parser (lines 189-195):
`.m3u`/`.pls`/`.ashx` re-queue; `.m3u8` explicitly does not. -/
def m3uLineRequeue (u : String) : Bool :=
  let p := pyLower (urlPathOf u)
  if strEndsWith p ".m3u" || strEndsWith p ".pls" || strEndsWith p ".ashx" then true
  else if strEndsWith p ".m3u8" then false
  else false

/-- The orphan entry synthesized for a stream URL with no preceding
`#EXTINF:` line (lines 210-218). -/
def orphanChannel (src line : String) : Channel :=
  let streamFilename := basenameOf (urlPathOf line)
  let d0 := if streamFilename ≠ "" then streamFilename else "Stream from " ++ basenameOf src
  let d1 := if pyStrip d0 = "" then "Unknown Stream from " ++ basenameOf src else d0
  { name := d1, logo := defaultLogo, group := "Raw Streams", url := line, source := src }

/-- Loop accumulator of `parse_and_store`: the pending `current_channel_info`,
the shared parse state, and `nested_playlists_to_requeue`. -/
structure M3UAcc where
  pending : Option Pending
  ps : ParseState
  requeue : List String
deriving Repr, DecidableEq

/-- One iteration of the `parse_and_store` line loop (lines 172-221). -/
def m3uLine (src : String) (acc : M3UAcc) (line0 : String) : M3UAcc :=
  let line := pyStrip line0
  if line = "" || strStartsWith line "#EXTM3U" then acc
  else if strStartsWith line "#EXTINF:" then { acc with pending := some (parseExtinf line) }
  else if strStartsWith line "http://" || strStartsWith line "https://" ||
          strStartsWith line "rtmp://" || strStartsWith line "rtsp://" then
    if m3uLineRequeue line then
      { pending := none, ps := acc.ps, requeue := acc.requeue ++ [line] }
    else match acc.pending with
      | some p =>
        { pending := none,
          ps := addChannelIfNew acc.ps
            { name := p.name, logo := p.logo, group := p.group, url := line, source := src },
          requeue := acc.requeue }
      | none =>
        { pending := none, ps := addChannelIfNew acc.ps (orphanChannel src line),
          requeue := acc.requeue }
  else acc

/-- `parse_and_store(lines, source_playlist_url)`: returns the updated
channels/seen state and the nested playlist URLs to re-queue. -/
def parseAndStore (lines : List String) (src : String) (ps : ParseState) :
    ParseState × List String :=
  let acc := lines.foldl (m3uLine src) { pending := none, ps := ps, requeue := [] }
  (acc.ps, acc.requeue)

/-! ## PLS parser (`parse_pls_content`, lines 122-166) -/

/-- One numbered PLS entry being assembled (`entries = defaultdict(dict)`). -/
structure PlsEntry where
  url : Option String := none
  name : Option String := none
deriving Repr, DecidableEq

/-- `entries[num]` update on the `defaultdict(dict)`: modify the first
matching key or create it at the end. -/
def plsUpdate (m : List (String × PlsEntry)) (k : String) (f : PlsEntry → PlsEntry) :
    List (String × PlsEntry) :=
  match m with
  | [] => [(k, f {})]
  | (k0, e) :: t => if k0 = k then (k0, f e) :: t else (k0, e) :: plsUpdate t k f

/-- One iteration of the PLS key/value collection loop (lines 127-137). -/
def plsCollect (m : List (String × PlsEntry)) (line0 : String) : List (String × PlsEntry) :=
  let line := pyStrip line0
  match splitOnceEq line with
  | none => m
  | some (k0, v0) =>
    let key := pyLower (pyStrip k0)
    let value := pyStrip v0
    if strStartsWith key "file" then
      let num := String.mk (key.toList.drop 4)
      if pyIsDigit num then plsUpdate m num (fun e => { e with url := some value }) else m
    else if strStartsWith key "title" then
      let num := String.mk (key.toList.drop 5)
      if pyIsDigit num then plsUpdate m num (fun e => { e with name := some value }) else m
    else m

/-- Stable insertion (ascending `int(key)`) used to model
`sorted(entries.items(), key=lambda x: int(x[0]))` (line 141). -/
def plsInsert (x : String × PlsEntry) : List (String × PlsEntry) → List (String × PlsEntry)
  | [] => [x]
  | y :: t => if digitsToNat y.1 < digitsToNat x.1 then y :: plsInsert x t else x :: y :: t

/-- Stable sort of the collected PLS entries by numeric key. -/
def plsSort (l : List (String × PlsEntry)) : List (String × PlsEntry) :=
  l.foldr plsInsert []

/-- The playlist-vs-stream suffix test of the PLS parser (lines 149-151). -/
def isRequeueSuffix (u : String) : Bool :=
  let p := pyLower (urlPathOf u)
  strEndsWith p ".m3u" || strEndsWith p ".pls" || strEndsWith p ".ashx"

/-- One iteration of the PLS emission loop (lines 141-163). -/
def plsEmit (src : String) (acc : ParseState × List String) (ent : String × PlsEntry) :
    ParseState × List String :=
  match ent.2.url with
  | none => acc
  | some streamUrl =>
    let defaultName := "Stream " ++ ent.1 ++ " from " ++ basenameOf src
    let channelName0 := (ent.2.name).getD defaultName
    let channelName := if pyStrip channelName0 = "" then defaultName else channelName0
    if isRequeueSuffix streamUrl then (acc.1, acc.2 ++ [streamUrl])
    else (addChannelIfNew acc.1
      { name := channelName, logo := defaultLogo, group := "PLS Streams",
        url := streamUrl, source := src }, acc.2)

/-- `parse_pls_content(pls_lines, source_pls_url)`. -/
def parsePlsContent (lines : List String) (src : String) (ps : ParseState) :
    ParseState × List String :=
  let entries := lines.foldl plsCollect []
  (plsSort entries).foldl (plsEmit src) (ps, [])

/-! ## HTML link extractor (`extract_stream_urls_from_html`, lines 47-68)

`BeautifulSoup` tag traversal and `urljoin` resolution are I/O-level
collaborators; the embedding takes as input the list of collected
`href`/`src` attribute values, already resolved to absolute form, and
applies the qualification, exclusion and scheme filters of lines 54-66. -/

/-- The media-stream pattern
`re.match(r'^https?://.*\.(ts|mp4|avi|mkv|flv|wmv|aac|mp3|ogg|opus)$', href, re.IGNORECASE)`. -/
def mediaStreamRegexMatch (href : String) : Bool :=
  let h := pyLower href
  (strStartsWith h "http://" || strStartsWith h "https://") &&
  (strEndsWith h ".ts" || strEndsWith h ".mp4" || strEndsWith h ".avi" ||
   strEndsWith h ".mkv" || strEndsWith h ".flv" || strEndsWith h ".wmv" ||
   strEndsWith h ".aac" || strEndsWith h ".mp3" || strEndsWith h ".ogg" ||
   strEndsWith h ".opus")

/-- The exclusion denylist test (line 64). -/
def htmlExcluded (href : String) : Bool :=
  let h := pyLower href
  containsSub h "telegram" || containsSub h ".html" || containsSub h ".php" ||
  containsSub h "github.com/login" || containsSub h "github.com/signup" ||
  containsSub h "accounts.google.com" || containsSub h "facebook.com/login" ||
  containsSub h "javascript:"

/-- Whether a candidate href passes all three filters of lines 60-66:
qualification (suffix, media pattern, keyword, or `tune.ashx`), the
denylist, and the absolute-`http(s)` requirement. -/
def htmlCandidateQualifies (href : String) : Bool :=
  let pathLower := pyLower (urlPathOf href)
  let h := pyLower href
  (strEndsWith pathLower ".m3u" || strEndsWith pathLower ".m3u8" ||
   strEndsWith pathLower ".pls" || strEndsWith pathLower ".ashx" ||
   mediaStreamRegexMatch href ||
   containsSub h "playlist" || containsSub h "stream" || containsSub h "listen" ||
   containsSub h "play" || containsSub h "hls" ||
   containsSub pathLower "tune.ashx") &&
  !htmlExcluded href &&
  (strStartsWith href "http://" || strStartsWith href "https://")

/-- `extract_stream_urls_from_html` on the collected candidate hrefs:
strip, filter, and deduplicate (the Python `set`). -/
def extractStreamUrlsFromHtml (candidates : List String) : List String :=
  ((candidates.map pyStrip).filter htmlCandidateQualifies).dedup

/-! ## Format classification (`process_sources`, lines 253-278) -/

/-- The HTML test of line 256-257: URL suffix `.html`/`.htm`, or a nonempty
body containing an HTML root-tag marker. -/
def htmlTest (url : String) (lines : List String) : Bool :=
  let content := joinLines lines
  strEndsWith (pyLower url) ".html" || strEndsWith (pyLower url) ".htm" ||
  (content != "" && (containsSub (pyLower content) "<html" || containsSub (pyLower content) "<body"))

/-- The PLS test of line 269: URL path ends in `.pls`. -/
def plsTest (url : String) : Bool := strEndsWith (pyLower (urlPathOf url)) ".pls"

/-- The M3U test of lines 272-273: the literal first fetched line, stripped
and uppercased, equals `#EXTM3U`, or the URL path ends in an M3U-family
suffix. -/
def m3uTest (url : String) (lines : List String) : Bool :=
  (match lines with
   | l0 :: _ => pyUpper (pyStrip l0) == "#EXTM3U"
   | [] => false) ||
  strEndsWith (pyLower (urlPathOf url)) ".m3u" ||
  strEndsWith (pyLower (urlPathOf url)) ".m3u8" ||
  strEndsWith (pyLower (urlPathOf url)) ".ashx"

/-- Outcome of the `if`/`elif` classification chain. -/
inductive FormatClass where
  | html
  | pls
  | m3u
  | fallback
deriving Repr, DecidableEq

/-- The classification chain of lines 256-278, first match wins: HTML,
then PLS, then M3U, then the fallback (which is parsed as M3U too). -/
def classify (url : String) (lines : List String) : FormatClass :=
  if htmlTest url lines then .html
  else if plsTest url then .pls
  else if m3uTest url lines then .m3u
  else .fallback

/-! ## Liveness checker (`check_link_active`, lines 95-120) -/

/-- The Link Status Cache `self.url_status_cache`: URL to `(is_live, url)`. -/
abbrev Cache := List (String × (Bool × String))

/-- Dict lookup `url in self.url_status_cache` / `self.url_status_cache[url]`. -/
def cacheFind : Cache → String → Option (Bool × String)
  | [], _ => none
  | (k, v) :: t, u => if k = u then some v else cacheFind t u

/-- Dict store `self.url_status_cache[url] = v`: overwrite the first
matching key or create it at the end. -/
def cacheInsert : Cache → String → (Bool × String) → Cache
  | [], u, v => [(u, v)]
  | (k, w) :: t, u, v => if k = u then (k, v) :: t else (k, w) :: cacheInsert t u v

/-- Network oracle for one URL probe: the status code of the HEAD request
and of the GET request, `none` meaning a timeout or transport exception. -/
abbrev ProbeOracle := String → Option Nat × Option Nat

/-- Success of the HEAD probe of lines 100-103: a status below 400; a
timeout or transport exception is a failure. -/
def headOk (probe : ProbeOracle) (url : String) : Bool :=
  match (probe url).1 with
  | some code => decide (code < 400)
  | none => false

/-- Success of the fallback streaming GET probe of lines 109-114. -/
def getOk (probe : ProbeOracle) (url : String) : Bool :=
  match (probe url).2 with
  | some code => decide (code < 400)
  | none => false

/-- `check_link_active(url)`: consult the cache first (lines 97-98);
otherwise HEAD, falling back to GET on exception or error status
(lines 99-114); any other outcome is cached as not live (lines 119-120).
Every miss ends with the outcome cached under the probed URL. -/
def checkLinkActive (probe : ProbeOracle) (cache : Cache) (url : String) :
    (Bool × String) × Cache :=
  match cacheFind cache url with
  | some r => (r, cache)
  | none =>
    if headOk probe url then ((true, url), cacheInsert cache url (true, url))
    else if getOk probe url then ((true, url), cacheInsert cache url (true, url))
    else ((false, url), cacheInsert cache url (false, url))

/-! ## Link Validator (`filter_active_channels`, lines 293-336)

The thread pool of line 311 is pure wait-on-I/O fan-out; the embedding
performs the per-URL checks sequentially in `urls_to_check_map` insertion
order, which fixes one arrival order of `as_completed`. -/

/-- One bucket of `urls_to_check_map`: the `(group, channel)` pairs that
share a stream URL. -/
abbrev Details := List (String × Channel)

/-- `urls_to_check_map[url].append((group, ch))`, creating absent keys
(lines 297-300). -/
def urlsMapAdd (m : List (String × Details)) (u : String) (d : String × Channel) :
    List (String × Details) :=
  match m with
  | [] => [(u, [d])]
  | (k, ds) :: t => if k = u then (k, ds ++ [d]) :: t else (k, ds) :: urlsMapAdd t u d

/-- Build `urls_to_check_map` by iterating the store (lines 297-300). -/
def buildUrlsMap (store : Store) : List (String × Details) :=
  (storePairs store).foldl (fun m gc => urlsMapAdd m gc.2.url gc) []

/-- The result-collection loop (lines 321-333): probe each unique URL, and
for a live URL append a copy of every referencing entry, with its `url`
field set to the returned URL, into the fresh `active_channels` store. -/
def runChecks (probe : ProbeOracle) :
    List (String × Details) → Store × Cache → Store × Cache
  | [], acc => acc
  | (u, ds) :: t, (active, cache) =>
    let rc := checkLinkActive probe cache u
    let active' := if rc.1.1 then
        ds.foldl (fun a gc => storeAppend a gc.1 { gc.2 with url := rc.1.2 }) active
      else active
    runChecks probe t (active', rc.2)

/-- `filter_active_channels`: skip wholesale when `check_links` is false
(lines 294-295); replace the store with the empty map when there is nothing
to check (lines 303-306); otherwise rebuild it from the live subset. -/
def filterActiveChannels (checkLinks : Bool) (probe : ProbeOracle) (cache : Cache)
    (store : Store) : Store × Cache :=
  if !checkLinks then (store, cache)
  else
    let m := buildUrlsMap store
    if m.isEmpty then (([] : Store), cache)
    else runChecks probe m ([], cache)

/-! ## Crawl Scheduler (`process_sources`, lines 226-291) -/

/-- The crawl state: the FIFO `processing_queue`, the visited set
`processed_or_queued_m3u_sources`, the shared parse state, the list of URLs
`fetch_content` has been invoked on, and `playlists_processed_count`. -/
structure CrawlState where
  queue : List String
  visited : List String
  ps : ParseState
  fetched : List String
  processedCount : Nat
deriving Repr, DecidableEq

/-- The gated enqueue used for seeds (lines 231-234), HTML-extracted links
(lines 262-268, gate `g` = the suffix re-filter) and nested playlists
(lines 283-287, gate `g` = always): skip when the per-link gate fails or
the URL was already processed or queued. -/
def enqueueAll (g : String → Bool) : List String → List String → List String →
    List String × List String
  | [], q, v => (q, v)
  | x :: t, q, v =>
    if g x ∧ x ∉ v then enqueueAll g t (q ++ [x]) (v ++ [x]) else enqueueAll g t q v

/-- The scheduler re-filter applied to each HTML-extracted link
(line 264): path ends in `.m3u`, `.m3u8`, `.pls`, or `.ashx`. -/
def isHtmlEnqueueSuffix (u : String) : Bool :=
  let p := pyLower (urlPathOf u)
  strEndsWith p ".m3u" || strEndsWith p ".m3u8" || strEndsWith p ".pls" || strEndsWith p ".ashx"

/-- One iteration of the `while processing_queue` loop (lines 238-287):
pop, fetch (via the line oracle), skip empty bodies, classify, dispatch to
the matching parser, and enqueue what it returns. `hrefs` is the oracle
giving the resolved href candidates found in a fetched HTML body. -/
def stepOne (oracle hrefs : String → List String) (s : CrawlState) : CrawlState :=
  match s.queue with
  | [] => s
  | u :: rest =>
    let lines := oracle u
    let content := joinLines lines
    let base : CrawlState :=
      { s with queue := rest, fetched := s.fetched ++ [u],
               processedCount := s.processedCount + 1 }
    if lines.isEmpty then base
    else match classify u lines with
      | .html =>
        let links := if content = "" then [] else extractStreamUrlsFromHtml (hrefs u)
        let qv := enqueueAll isHtmlEnqueueSuffix links base.queue base.visited
        { base with queue := qv.1, visited := qv.2 }
      | .pls =>
        let pr := parsePlsContent lines u base.ps
        let qv := enqueueAll (fun _ => true) pr.2 base.queue base.visited
        { base with ps := pr.1, queue := qv.1, visited := qv.2 }
      | .m3u =>
        let pr := parseAndStore lines u base.ps
        let qv := enqueueAll (fun _ => true) pr.2 base.queue base.visited
        { base with ps := pr.1, queue := qv.1, visited := qv.2 }
      | .fallback =>
        let pr := parseAndStore lines u base.ps
        let qv := enqueueAll (fun _ => true) pr.2 base.queue base.visited
        { base with ps := pr.1, queue := qv.1, visited := qv.2 }

/-- The `while processing_queue` loop (line 238), with an explicit fuel
bound on the number of iterations so partial runs are observable states. -/
def crawlLoop (oracle hrefs : String → List String) : Nat → CrawlState → CrawlState
  | 0, s => s
  | fuel + 1, s =>
    match s.queue with
    | [] => s
    | _ :: _ => crawlLoop oracle hrefs fuel (stepOne oracle hrefs s)

/-- The cleared state of lines 227-234: empty store, empty seen set, and
the seed URLs enqueued through the visited gate. -/
def initCrawl (seeds : List String) : CrawlState :=
  let qv := enqueueAll (fun _ => true) seeds [] []
  { queue := qv.1, visited := qv.2, ps := { channels := [], seen := [] },
    fetched := [], processedCount := 0 }

/-- `process_sources(initial_source_urls)` followed by the conditional
validation pass of lines 290-291: the final crawl state and the published
Catalogue Store. -/
def processSources (checkLinks : Bool) (oracle hrefs : String → List String)
    (probe : ProbeOracle) (fuel : Nat) (seeds : List String) : CrawlState × Store :=
  let s := crawlLoop oracle hrefs fuel (initCrawl seeds)
  if s.ps.channels.isEmpty then (s, s.ps.channels)
  else (s, (filterActiveChannels checkLinks probe [] s.ps.channels).1)

/-- Modelled from the spec: the crawl loop of a bounded configuration
(spec §4.6 and §6, `max_urls_to_process`), in which the loop additionally
terminates once the processed-URL count reaches the cap. This variant
exists only for comparison with `crawlLoop`; the source code of this
revision has no such cap. -/
def crawlLoopCapped (cap : Nat) (oracle hrefs : String → List String) :
    Nat → CrawlState → CrawlState
  | 0, s => s
  | fuel + 1, s =>
    if s.processedCount ≥ cap then s
    else match s.queue with
      | [] => s
      | _ :: _ => crawlLoopCapped cap oracle hrefs fuel (stepOne oracle hrefs s)

/-! ## Concrete crawl fixtures used by the scenario theorems -/

/-- Fixture: line oracle of a crawl whose single seed is an HTML page. -/
def htmlPageOracle : String → List String :=
  fun u => if u = "http://h/page.html" then ["<html>"] else []

/-- Fixture: href candidates found on the HTML seed page: one `.m3u8` link
and one keyword-qualified link without a playlist suffix. -/
def htmlPageHrefs : String → List String :=
  fun u =>
    if u = "http://h/page.html" then ["http://h/x.m3u8", "http://host/listen/radio"]
    else []

/-- Fixture: every fetched body is a single bare stream URL line. -/
def plainStreamOracle : String → List String := fun _ => ["http://s/a.mp3"]

/-- Fixture: no href candidates on any page. -/
def noHrefs : String → List String := fun _ => []

/-! ## Lemmas about the Link Status Cache -/

/-- Inserting under a key makes it the value `cacheFind` returns. -/
theorem cacheFind_cacheInsert (c : Cache) (u : String) (v : Bool × String) :
    cacheFind (cacheInsert c u v) u = some v := by
  induction c with
  | nil => simp [cacheInsert, cacheFind]
  | cons p t ih =>
    by_cases h : p.1 = u
    · simp [cacheInsert, cacheFind, h]
    · simp [cacheInsert, cacheFind, h, ih]

/-! ## C7: idempotent caching of `check_link_active` -/

/-- C7 — confirmed. Probing the same URL a second time within one run
returns exactly the first call's result, leaves the cache unchanged, and
performs no fresh network probe: the second call's outcome is independent
of the probe oracle `p2`, which may differ arbitrarily from `p1`. -/
theorem check_link_active_idempotent (p1 p2 : ProbeOracle) (cache : Cache) (url : String) :
    checkLinkActive p2 (checkLinkActive p1 cache url).2 url
      = ((checkLinkActive p1 cache url).1, (checkLinkActive p1 cache url).2) := by
  unfold checkLinkActive
  cases h : cacheFind cache url with
  | some r => simp [h]
  | none =>
    by_cases h1 : headOk p1 url <;> by_cases h2 : getOk p1 url <;>
      simp [h, h1, h2, cacheFind_cacheInsert]

/-! ## C8: validation disabled is a frame -/

/-- C8 — confirmed. With `check_links = false` the validation phase
returns the Catalogue Store and cache untouched, for every probe oracle
(so no liveness probe can influence anything), and the store published by
`process_sources` is exactly the store the crawl produced. -/
theorem validation_disabled_frame :
    (∀ (probe : ProbeOracle) (cache : Cache) (store : Store),
        filterActiveChannels false probe cache store = (store, cache)) ∧
    (∀ (oracle hrefs : String → List String) (probe : ProbeOracle)
        (fuel : Nat) (seeds : List String),
        (processSources false oracle hrefs probe fuel seeds).2
          = (crawlLoop oracle hrefs fuel (initCrawl seeds)).ps.channels) := by
  refine ⟨fun probe cache store => rfl, fun o h p f seeds => ?_⟩
  unfold processSources
  by_cases hc : (crawlLoop o h f (initCrawl seeds)).ps.channels.isEmpty <;>
    simp [hc, filterActiveChannels]

/-! ## C9: the `.pls` re-queue / PLS default-name scenario -/

/-- C9 — confirmed. An M3U body whose URL line ends in `.pls` with no
preceding `#EXTINF` line stores nothing and re-queues that URL; the PLS
body `File1=http://x/stream.mp3` without `Title1` yields exactly one entry
named "Stream 1 from list.pls" in category "PLS Streams" with that
stream URL. -/
theorem m3u_pls_requeue_default_entry :
    parseAndStore ["#EXTM3U", "http://x/list.pls"] "http://seed/root.m3u" ⟨[], []⟩
      = (⟨[], []⟩, ["http://x/list.pls"]) ∧
    parsePlsContent ["File1=http://x/stream.mp3"] "http://x/list.pls" ⟨[], []⟩
      = (⟨[("PLS Streams",
            [⟨"Stream 1 from list.pls", defaultLogo, "PLS Streams",
              "http://x/stream.mp3", "http://x/list.pls"⟩])],
          ["http://x/stream.mp3"]⟩, []) := by
  decide

/-! ## C4: classification order -/

/-- C4 — counterexample. A body whose first (non-blank) line is the M3U
header but which also contains an HTML marker is classified HTML, not M3U:
the HTML test of line 256 runs before the header test of line 272. -/
theorem classifier_order_counterexample :
    (pyUpper (pyStrip "#EXTM3U") == "#EXTM3U") = true ∧
    containsSub (pyLower (joinLines ["#EXTM3U", "<html>"])) "<html" = true ∧
    classify "http://a/x.txt" ["#EXTM3U", "<html>"] = FormatClass.html ∧
    classify "http://a/x.txt" ["#EXTM3U", "<html>"] ≠ FormatClass.m3u := by
  decide

/-- C4 — amended. The classifier applies its rules in order with first
match winning, but the HTML test (URL suffix or root-tag marker in the
body) is applied first; only when it fails, and the path is not `.pls`,
does the M3U test (the literal first line equal to the header token, or an
M3U-family URL suffix) decide classification as M3U. -/
theorem classifier_order_amended :
    (∀ url lines, htmlTest url lines = true → classify url lines = FormatClass.html) ∧
    (∀ url lines, htmlTest url lines = false → plsTest url = false →
        m3uTest url lines = true → classify url lines = FormatClass.m3u) := by
  refine ⟨fun url lines h => ?_, fun url lines h1 h2 h3 => ?_⟩
  · simp [classify, h]
  · simp [classify, h1, h2, h3]

/-- Witness for `classifier_order_amended` at concrete inputs. -/
theorem classifier_order_amended_witness :
    classify "http://a/x.txt" ["#EXTM3U", "<html>"] = FormatClass.html ∧
    classify "http://a/y.txt" ["#EXTM3U"] = FormatClass.m3u :=
  ⟨classifier_order_amended.1 "http://a/x.txt" ["#EXTM3U", "<html>"] (by decide),
   classifier_order_amended.2 "http://a/y.txt" ["#EXTM3U"]
     (by decide) (by decide) (by decide)⟩

/-! ## C2: playlist/stream suffix classification (counterexample part) -/

/-- C2 — counterexample. A URL whose path ends in `.m3u8` is re-queued
when it is discovered by the HTML link extractor: after one crawl step on
an HTML seed, the extracted `.m3u8` link sits in the work queue (line 264
enqueues `.m3u8` alongside `.m3u`/`.pls`/`.ashx`). -/
theorem html_m3u8_requeued_counterexample :
    strEndsWith (pyLower (urlPathOf "http://h/x.m3u8")) ".m3u8" = true ∧
    "http://h/x.m3u8" ∈ extractStreamUrlsFromHtml (htmlPageHrefs "http://h/page.html") ∧
    "http://h/x.m3u8" ∈ (crawlLoop htmlPageOracle htmlPageHrefs 1
        (initCrawl ["http://h/page.html"])).queue := by
  decide

/-! ## C5: the scheduler re-filters the extractor's output (counterexample part) -/

/-- C5 — counterexample. A keyword-qualified link returned by the HTML
extractor is not enqueued: after one crawl step on the HTML seed, the
extracted link `http://host/listen/radio` (qualified by the `listen`
keyword) is neither queued nor marked visited, because the scheduler
re-filters extracted links by playlist suffix at line 264. -/
theorem extractor_enqueue_counterexample :
    htmlCandidateQualifies "http://host/listen/radio" = true ∧
    "http://host/listen/radio" ∈ extractStreamUrlsFromHtml (htmlPageHrefs "http://h/page.html") ∧
    "http://host/listen/radio" ∉ (crawlLoop htmlPageOracle htmlPageHrefs 1
        (initCrawl ["http://h/page.html"])).queue ∧
    "http://host/listen/radio" ∉ (crawlLoop htmlPageOracle htmlPageHrefs 1
        (initCrawl ["http://h/page.html"])).visited := by
  decide

/-! ## C6: no processed-count cap exists (counterexample part) -/

/-- C6 — counterexample. The code's crawl loop does not observe any
processed-count cap: with two seeds it processes both URLs and stops only
on queue exhaustion, while the spec's bounded-configuration loop
(`crawlLoopCapped`, cap 1) stops after one. No `max_urls_to_process`
configuration exists in this revision (the constructor takes only
`country`, `base_dir`, `check_links`). -/
theorem crawl_cap_counterexample :
    (crawlLoop plainStreamOracle noHrefs 10
        (initCrawl ["http://a/1.m3u", "http://a/2.m3u"])).processedCount = 2 ∧
    (crawlLoopCapped 1 plainStreamOracle noHrefs 10
        (initCrawl ["http://a/1.m3u", "http://a/2.m3u"])).processedCount = 1 ∧
    (crawlLoop plainStreamOracle noHrefs 10
        (initCrawl ["http://a/1.m3u", "http://a/2.m3u"])).queue = [] := by
  decide

/-! ## Store lemmas -/

/-- Appending an entry permutes the flattened URL list by consing the new
URL (the entry lands inside its category, not at the global end). -/
theorem storeUrls_storeAppend (s : Store) (g : String) (ch : Channel) :
    List.Perm (storeUrls (storeAppend s g ch)) (ch.url :: storeUrls s) := by
  induction s with
  | nil => simp [storeAppend, storeUrls]
  | cons p t ih =>
    obtain ⟨k, l⟩ := p
    by_cases h : k = g
    · simp only [storeAppend, if_pos h, storeUrls, List.map_append, List.map_cons,
        List.map_nil, List.append_assoc, List.singleton_append]
      exact List.perm_middle
    · simp only [storeAppend, if_neg h, storeUrls]
      exact (List.Perm.append_left _ ih).trans List.perm_middle

/-- Appending an entry permutes the flattened pair list by consing the new
`(category, entry)` pair. -/
theorem storePairs_storeAppend (s : Store) (g : String) (ch : Channel) :
    List.Perm (storePairs (storeAppend s g ch)) ((g, ch) :: storePairs s) := by
  induction s with
  | nil => simp [storeAppend, storePairs]
  | cons p t ih =>
    obtain ⟨k, l⟩ := p
    by_cases h : k = g
    · subst h
      simp only [storeAppend, if_pos rfl, storePairs, List.map_append, List.map_cons,
        List.map_nil, List.append_assoc, List.singleton_append]
      exact List.perm_middle
    · simp only [storeAppend, if_neg h, storePairs]
      exact (List.Perm.append_left _ ih).trans List.perm_middle

/-- A pair of the appended store is an old pair or the new one. -/
theorem mem_storePairs_storeAppend {s : Store} {g : String} {ch : Channel}
    {gc : String × Channel} (h : gc ∈ storePairs (storeAppend s g ch)) :
    gc ∈ storePairs s ∨ gc = (g, ch) := by
  have := List.mem_cons.mp ((storePairs_storeAppend s g ch).mem_iff.mp h)
  rcases this with h1 | h1
  · exact Or.inr h1
  · exact Or.inl h1

/-- The flattened URL list is the URL projection of the flattened pairs. -/
theorem storeUrls_eq_pairs (s : Store) :
    storeUrls s = (storePairs s).map (fun gc => gc.2.url) := by
  induction s with
  | nil => rfl
  | cons p t ih =>
    obtain ⟨k, l⟩ := p
    simp [storeUrls, storePairs, ih, List.map_map, Function.comp]

/-- Every category of the store holds at least one entry. -/
def AllNonempty (s : Store) : Prop := ∀ p ∈ s, p.2 ≠ []

/-- `storeAppend` never creates an empty category. -/
theorem allNonempty_storeAppend {s : Store} (g : String) (ch : Channel)
    (h : AllNonempty s) : AllNonempty (storeAppend s g ch) := by
  induction s with
  | nil =>
    intro p hp
    simp only [storeAppend, List.mem_singleton] at hp
    subst hp; simp
  | cons q t ih =>
    obtain ⟨k, l⟩ := q
    intro p hp
    by_cases hk : k = g
    · simp only [storeAppend, if_pos hk] at hp
      rcases List.mem_cons.mp hp with hp | hp
      · subst hp; simp
      · exact h p (List.mem_cons_of_mem _ hp)
    · simp only [storeAppend, if_neg hk] at hp
      rcases List.mem_cons.mp hp with hp | hp
      · subst hp; exact h (k, l) (List.mem_cons_self _ _)
      · exact ih (fun r hr => h r (List.mem_cons_of_mem _ hr)) p hp

/-! ## The uniqueness invariant of the parse state -/

/-- The Catalogue Store invariant maintained during the crawl: stream URLs
are pairwise distinct, and every stored URL is recorded in `seen_urls`. -/
def SInv (ps : ParseState) : Prop :=
  (storeUrls ps.channels).Nodup ∧ ∀ u ∈ storeUrls ps.channels, u ∈ ps.seen

/-- The guarded append of both parsers preserves the uniqueness invariant:
a URL already stored is already in `seen_urls`, so the guard rejects it. -/
theorem SInv_addChannelIfNew (ps : ParseState) (ch : Channel) (h : SInv ps) :
    SInv (addChannelIfNew ps ch) := by
  unfold addChannelIfNew
  by_cases hm : ch.url ∈ ps.seen
  · simpa [hm] using h
  · simp only [hm, if_false]
    constructor
    · refine (storeUrls_storeAppend ps.channels ch.group ch).nodup_iff.mpr ?_
      exact List.nodup_cons.mpr ⟨fun hmem => hm (h.2 _ hmem), h.1⟩
    · intro u hu
      have := List.mem_cons.mp ((storeUrls_storeAppend ps.channels ch.group ch).mem_iff.mp hu)
      rcases this with h1 | h1
      · simp [h1]
      · exact List.mem_append_left _ (h.2 _ h1)

/-- The guarded append never creates an empty category. -/
theorem allNonempty_addChannelIfNew (ps : ParseState) (ch : Channel)
    (h : AllNonempty ps.channels) : AllNonempty (addChannelIfNew ps ch).channels := by
  unfold addChannelIfNew
  by_cases hm : ch.url ∈ ps.seen
  · simpa [hm] using h
  · simpa [hm] using allNonempty_storeAppend ch.group ch h

/-- Fold preservation of a predicate. -/
theorem foldl_preserve {α β : Type} {P : α → Prop} {f : α → β → α}
    (hf : ∀ a b, P a → P (f a b)) :
    ∀ (l : List β) (a : α), P a → P (l.foldl f a)
  | [], _, h => h
  | b :: t, a, h => foldl_preserve hf t (f a b) (hf a b h)

/-- Any parse-state property preserved by the guarded append is preserved
by one M3U line step. -/
theorem m3uLine_preserve (P : ParseState → Prop)
    (hP : ∀ ps ch, P ps → P (addChannelIfNew ps ch))
    (src : String) (acc : M3UAcc) (line : String) (h : P acc.ps) :
    P (m3uLine src acc line).ps := by
  simp only [m3uLine]
  repeat' split
  all_goals first | exact h | exact hP _ _ h

/-- Any parse-state property preserved by the guarded append is preserved
by `parse_and_store`. -/
theorem parseAndStore_preserve (P : ParseState → Prop)
    (hP : ∀ ps ch, P ps → P (addChannelIfNew ps ch))
    (lines : List String) (src : String) (ps : ParseState) (h : P ps) :
    P (parseAndStore lines src ps).1 :=
  foldl_preserve (P := fun acc => P acc.ps)
    (fun a b ha => m3uLine_preserve P hP src a b ha) lines
    { pending := none, ps := ps, requeue := [] } h

/-- Any parse-state property preserved by the guarded append is preserved
by one PLS emission step. -/
theorem plsEmit_preserve (P : ParseState → Prop)
    (hP : ∀ ps ch, P ps → P (addChannelIfNew ps ch))
    (src : String) (acc : ParseState × List String) (ent : String × PlsEntry)
    (h : P acc.1) : P (plsEmit src acc ent).1 := by
  simp only [plsEmit]
  repeat' split
  all_goals first | exact h | exact hP _ _ h

/-- Any parse-state property preserved by the guarded append is preserved
by `parse_pls_content`. -/
theorem parsePlsContent_preserve (P : ParseState → Prop)
    (hP : ∀ ps ch, P ps → P (addChannelIfNew ps ch))
    (lines : List String) (src : String) (ps : ParseState) (h : P ps) :
    P (parsePlsContent lines src ps).1 :=
  foldl_preserve (P := fun acc => P acc.1)
    (fun a b ha => plsEmit_preserve P hP src a b ha) _ (ps, []) h

/-- Any parse-state property preserved by the guarded append is preserved
by one crawl step. -/
theorem stepOne_preserve_ps (P : ParseState → Prop)
    (hP : ∀ ps ch, P ps → P (addChannelIfNew ps ch))
    (oracle hrefs : String → List String) (s : CrawlState) (h : P s.ps) :
    P (stepOne oracle hrefs s).ps := by
  simp only [stepOne]
  split
  · exact h
  · split
    · exact h
    · split
      · exact h
      · exact parsePlsContent_preserve P hP _ _ _ h
      · exact parseAndStore_preserve P hP _ _ _ h
      · exact parseAndStore_preserve P hP _ _ _ h

/-- Any parse-state property preserved by the guarded append is preserved
by the whole crawl loop. -/
theorem crawlLoop_preserve_ps (P : ParseState → Prop)
    (hP : ∀ ps ch, P ps → P (addChannelIfNew ps ch))
    (oracle hrefs : String → List String) :
    ∀ (fuel : Nat) (s : CrawlState), P s.ps → P (crawlLoop oracle hrefs fuel s).ps
  | 0, _, h => h
  | fuel + 1, s, h => by
    unfold crawlLoop
    split
    · exact h
    · exact crawlLoop_preserve_ps P hP oracle hrefs fuel _
        (stepOne_preserve_ps P hP oracle hrefs s h)

/-! ## Frontier lemmas: the gated enqueue -/

/-- Queue membership after a gated enqueue run: exactly the old queue
members plus the gate-passing list members that were not yet visited. -/
theorem mem_enqueueAll (g : String → Bool) :
    ∀ (l q v : List String) (x : String),
      x ∈ (enqueueAll g l q v).1 ↔ x ∈ q ∨ (x ∈ l ∧ g x = true ∧ x ∉ v)
  | [], q, v, x => by simp [enqueueAll]
  | x0 :: t, q, v, x => by
    by_cases hc : g x0 = true ∧ x0 ∉ v
    · simp only [enqueueAll, if_pos hc]
      rw [mem_enqueueAll g t (q ++ [x0]) (v ++ [x0]) x]
      constructor
      · rintro (hq | ⟨ht, hg, hv⟩)
        · rcases List.mem_append.mp hq with hq | hq
          · exact Or.inl hq
          · rw [List.mem_singleton] at hq
            exact Or.inr ⟨hq ▸ List.mem_cons_self x0 t, hq ▸ hc.1, hq ▸ hc.2⟩
        · exact Or.inr ⟨List.mem_cons_of_mem _ ht, hg,
            fun hv2 => hv (List.mem_append_left _ hv2)⟩
      · intro h
        by_cases hx : x = x0
        · exact Or.inl (List.mem_append_right _ (by rw [List.mem_singleton]; exact hx))
        · rcases h with hq | ⟨ht, hg, hv⟩
          · exact Or.inl (List.mem_append_left _ hq)
          · have ht2 : x ∈ t := by
              rcases List.mem_cons.mp ht with he | ht2
              · exact absurd he hx
              · exact ht2
            refine Or.inr ⟨ht2, hg, fun hv2 => ?_⟩
            rcases List.mem_append.mp hv2 with hv2 | hv2
            · exact hv hv2
            · rw [List.mem_singleton] at hv2
              exact hx hv2
    · simp only [enqueueAll, if_neg hc]
      rw [mem_enqueueAll g t q v x]
      constructor
      · rintro (hq | ⟨ht, hg, hv⟩)
        · exact Or.inl hq
        · exact Or.inr ⟨List.mem_cons_of_mem _ ht, hg, hv⟩
      · rintro (hq | ⟨ht, hg, hv⟩)
        · exact Or.inl hq
        · rcases List.mem_cons.mp ht with he | ht2
          · exact absurd ⟨he ▸ hg, he ▸ hv⟩ hc
          · exact Or.inr ⟨ht2, hg, hv⟩

/-- The gated enqueue preserves the frontier discipline: a duplicate-free
queue covered by the visited set stays duplicate-free and covered, the
visited set only grows, and a visited URL outside the queue stays out. -/
theorem enqueueAll_spec (g : String → Bool) :
    ∀ (l q v : List String), q.Nodup → (∀ x ∈ q, x ∈ v) →
      ((enqueueAll g l q v).1.Nodup ∧
       (∀ x ∈ (enqueueAll g l q v).1, x ∈ (enqueueAll g l q v).2) ∧
       (∀ x ∈ v, x ∈ (enqueueAll g l q v).2) ∧
       (∀ x ∈ v, x ∉ q → x ∉ (enqueueAll g l q v).1))
  | [], q, v, hq, hqv => ⟨hq, hqv, fun x hx => hx, fun _ hv hq' => hq'⟩
  | x0 :: t, q, v, hq, hqv => by
    by_cases hc : g x0 = true ∧ x0 ∉ v
    · simp only [enqueueAll, if_pos hc]
      have hx0q : x0 ∉ q := fun hx => hc.2 (hqv x0 hx)
      have hq' : (q ++ [x0]).Nodup := by
        simp [List.nodup_append, hq, hx0q]
      have hqv' : ∀ x ∈ q ++ [x0], x ∈ v ++ [x0] := by
        intro x hx
        rcases List.mem_append.mp hx with hx | hx
        · exact List.mem_append_left _ (hqv x hx)
        · exact List.mem_append_right _ hx
      have ih := enqueueAll_spec g t (q ++ [x0]) (v ++ [x0]) hq' hqv'
      refine ⟨ih.1, ih.2.1, ?_, ?_⟩
      · intro x hx
        exact ih.2.2.1 x (List.mem_append_left _ hx)
      · intro x hxv hxq
        have hxne : x ≠ x0 := fun he => hc.2 (he ▸ hxv)
        refine ih.2.2.2 x (List.mem_append_left _ hxv) ?_
        intro hx
        rcases List.mem_append.mp hx with hx | hx
        · exact hxq hx
        · simp at hx; exact hxne hx
    · simp only [enqueueAll, if_neg hc]
      exact enqueueAll_spec g t q v hq hqv

/-! ## The crawl-frontier invariant -/

/-- The scheduler discipline of `process_sources`: fetched URLs are
pairwise distinct, the queue is duplicate-free, queue and fetched URLs are
recorded in the visited set, and a fetched URL is never back in the queue. -/
def CrawlInv (s : CrawlState) : Prop :=
  s.fetched.Nodup ∧ s.queue.Nodup ∧ (∀ u ∈ s.queue, u ∈ s.visited) ∧
  (∀ u ∈ s.fetched, u ∈ s.visited) ∧ (∀ u ∈ s.fetched, u ∉ s.queue)

/-- One crawl step preserves the frontier discipline. -/
theorem stepOne_crawlInv (oracle hrefs : String → List String) (s : CrawlState)
    (h : CrawlInv s) : CrawlInv (stepOne oracle hrefs s) := by
  obtain ⟨h1, h2, h3, h4, h5⟩ := h
  rcases hs : s.queue with _ | ⟨u, rest⟩
  · simpa [stepOne, hs] using ⟨h1, h2, h3, h4, h5⟩
  · rw [hs] at h2 h3 h5
    have hrest : rest.Nodup := h2.of_cons
    have hunr : u ∉ rest := (List.nodup_cons.mp h2).1
    have huv : u ∈ s.visited := h3 u (List.mem_cons_self _ _)
    have hrv : ∀ x ∈ rest, x ∈ s.visited := fun x hx => h3 x (List.mem_cons_of_mem _ hx)
    have hfet : (s.fetched ++ [u]).Nodup := by
      simp only [List.nodup_append, List.nodup_cons, List.not_mem_nil, not_false_iff,
        List.nodup_nil, and_true, true_and]
      constructor
      · exact h1
      · intro x hx
        simp only [List.mem_singleton]
        intro he
        exact h5 x hx (he ▸ List.mem_cons_self _ _)
    have hfv : ∀ x ∈ s.fetched ++ [u], x ∈ s.visited := by
      intro x hx
      rcases List.mem_append.mp hx with hx | hx
      · exact h4 x hx
      · simp only [List.mem_singleton] at hx
        exact hx ▸ huv
    have hfr : ∀ x ∈ s.fetched ++ [u], x ∉ rest := by
      intro x hx
      rcases List.mem_append.mp hx with hx | hx
      · exact fun hr => h5 x hx (List.mem_cons_of_mem _ hr)
      · simp only [List.mem_singleton] at hx
        exact hx ▸ hunr
    simp only [stepOne, hs]
    split
    · exact ⟨hfet, hrest, hrv, hfv, hfr⟩
    · have hgen : ∀ (g : String → Bool) (nested : List String),
          CrawlInv { queue := (enqueueAll g nested rest s.visited).1,
                     visited := (enqueueAll g nested rest s.visited).2,
                     ps := (stepOne oracle hrefs s).ps,
                     fetched := s.fetched ++ [u],
                     processedCount := s.processedCount + 1 } := by
        intro g nested
        have hsp := enqueueAll_spec g nested rest s.visited hrest hrv
        exact ⟨hfet, hsp.1, hsp.2.1, fun x hx => hsp.2.2.1 x (hfv x hx),
          fun x hx => hsp.2.2.2 x (hfv x hx) (hfr x hx)⟩
      split
      · exact hgen isHtmlEnqueueSuffix _
      · exact hgen (fun _ => true) _
      · exact hgen (fun _ => true) _
      · exact hgen (fun _ => true) _

/-- The whole crawl loop preserves the frontier discipline. -/
theorem crawlLoop_crawlInv (oracle hrefs : String → List String) :
    ∀ (fuel : Nat) (s : CrawlState), CrawlInv s → CrawlInv (crawlLoop oracle hrefs fuel s)
  | 0, _, h => h
  | fuel + 1, s, h => by
    unfold crawlLoop
    split
    · exact h
    · exact crawlLoop_crawlInv oracle hrefs fuel _ (stepOne_crawlInv oracle hrefs s h)

/-- The cleared-and-seeded initial state satisfies the frontier discipline. -/
theorem initCrawl_crawlInv (seeds : List String) : CrawlInv (initCrawl seeds) := by
  have hsp := enqueueAll_spec (fun _ => true) seeds [] [] List.nodup_nil
    (fun x hx => absurd hx (List.not_mem_nil x))
  exact ⟨List.nodup_nil, hsp.1, hsp.2.1,
    fun u hu => absurd hu (List.not_mem_nil u),
    fun u hu => absurd hu (List.not_mem_nil u)⟩

/-! ## C3: fetch at most once per URL -/

/-- C3 — confirmed. Over any run, at any point (any fuel), the list of
URLs `fetch_content` has been invoked on is duplicate-free: the visited
set gates seeds, HTML-extracted links, and nested playlist URLs alike, so
no URL is fetched twice no matter how many playlists reference it. -/
theorem fetch_at_most_once (oracle hrefs : String → List String) (fuel : Nat)
    (seeds : List String) :
    (crawlLoop oracle hrefs fuel (initCrawl seeds)).fetched.Nodup :=
  (crawlLoop_crawlInv oracle hrefs fuel (initCrawl seeds) (initCrawl_crawlInv seeds)).1

/-! ## C6: termination condition of the crawl loop -/

/-- A step on a nonempty queue always increments the processed count. -/
theorem stepOne_processed (oracle hrefs : String → List String) (s : CrawlState)
    (u : String) (rest : List String) (h : s.queue = u :: rest) :
    (stepOne oracle hrefs s).processedCount = s.processedCount + 1 := by
  simp only [stepOne, h]
  split
  · rfl
  · split <;> rfl

/-- The processed count never decreases along the loop. -/
theorem crawlLoop_processed_mono (oracle hrefs : String → List String) :
    ∀ (fuel : Nat) (s : CrawlState),
      s.processedCount ≤ (crawlLoop oracle hrefs fuel s).processedCount
  | 0, _ => le_refl _
  | fuel + 1, s => by
    rcases hq : s.queue with _ | ⟨u, rest⟩
    · conv_rhs => rw [crawlLoop]
      rw [hq]
    · have h1 := stepOne_processed oracle hrefs s u rest hq
      have h2 := crawlLoop_processed_mono oracle hrefs fuel (stepOne oracle hrefs s)
      have h3 : crawlLoop oracle hrefs (fuel + 1) s
          = crawlLoop oracle hrefs fuel (stepOne oracle hrefs s) := by
        conv_lhs => rw [crawlLoop]
        rw [hq]
      rw [h3]
      omega

/-- C6 — amended. The crawl loop of this revision terminates exactly when
the work queue is empty: with fuel to run one more iteration, the loop
returns its input state if and only if the queue is empty (a step on a
nonempty queue strictly increases the processed count, so no cap of any
kind can stop it early; the removed `max_urls_to_process` bound exists
only in the spec-modelled `crawlLoopCapped`). -/
theorem crawl_terminates_iff_queue_empty (oracle hrefs : String → List String)
    (fuel : Nat) (s : CrawlState) :
    crawlLoop oracle hrefs (fuel + 1) s = s ↔ s.queue = [] := by
  constructor
  · intro heq
    rcases hq : s.queue with _ | ⟨u, rest⟩
    · rfl
    · exfalso
      have h1 := stepOne_processed oracle hrefs s u rest hq
      have h2 := crawlLoop_processed_mono oracle hrefs fuel (stepOne oracle hrefs s)
      have h3 : crawlLoop oracle hrefs (fuel + 1) s
          = crawlLoop oracle hrefs fuel (stepOne oracle hrefs s) := by
        conv_lhs => rw [crawlLoop]
        rw [hq]
      rw [h3] at heq
      rw [h1] at h2
      rw [heq] at h2
      omega
  · intro hq
    conv_lhs => rw [crawlLoop]
    rw [hq]

/-! ## Parser output discipline: what is re-queued and what is stored -/

/-- An entry appended by the guarded append is an old entry or the new one. -/
theorem mem_storePairs_addChannelIfNew {ps : ParseState} {ch : Channel}
    {gc : String × Channel} (h : gc ∈ storePairs (addChannelIfNew ps ch).channels) :
    gc ∈ storePairs ps.channels ∨ gc = (ch.group, ch) := by
  unfold addChannelIfNew at h
  by_cases hm : ch.url ∈ ps.seen
  · rw [if_pos hm] at h
    exact Or.inl h
  · rw [if_neg hm] at h
    exact mem_storePairs_storeAppend h

/-- Invariant of the M3U line loop: every re-queued URL passes the
playlist-suffix test, and every stored entry is old or fails it. -/
def M3UOut (ps0 : ParseState) (acc : M3UAcc) : Prop :=
  (∀ u ∈ acc.requeue, m3uLineRequeue u = true) ∧
  (∀ gc ∈ storePairs acc.ps.channels,
    gc ∈ storePairs ps0.channels ∨ m3uLineRequeue gc.2.url = false)

/-- Helper: extending the re-queue list with a suffix-passing URL. -/
theorem M3UOut_requeue {ps0 : ParseState} {acc : M3UAcc} (h : M3UOut ps0 acc)
    (u : String) (hu : m3uLineRequeue u = true) (pend : Option Pending) :
    M3UOut ps0 { pending := pend, ps := acc.ps, requeue := acc.requeue ++ [u] } := by
  refine ⟨?_, h.2⟩
  intro x hx
  rcases List.mem_append.mp hx with hx | hx
  · exact h.1 x hx
  · rw [List.mem_singleton] at hx
    exact hx ▸ hu

/-- Helper: storing an entry whose URL fails the suffix test. -/
theorem M3UOut_add {ps0 : ParseState} {acc : M3UAcc} (h : M3UOut ps0 acc)
    (ch : Channel) (hch : m3uLineRequeue ch.url = false) (pend : Option Pending) :
    M3UOut ps0 { pending := pend, ps := addChannelIfNew acc.ps ch,
                 requeue := acc.requeue } := by
  refine ⟨h.1, ?_⟩
  intro gc hgc
  rcases mem_storePairs_addChannelIfNew hgc with hgc | hgc
  · exact h.2 gc hgc
  · right
    rw [hgc]
    exact hch

/-- One M3U line step preserves the output discipline. -/
theorem m3uLine_out (src : String) (ps0 : ParseState) (acc : M3UAcc) (line0 : String)
    (h : M3UOut ps0 acc) : M3UOut ps0 (m3uLine src acc line0) := by
  simp only [m3uLine]
  split
  · exact h
  · split
    · exact h
    · split
      · split
        · next hD => exact M3UOut_requeue h _ hD none
        · next hD =>
          split
          · exact M3UOut_add h _ (by simpa using hD) none
          · exact M3UOut_add h _ (by simpa [orphanChannel] using hD) none
      · exact h

/-- `parse_and_store` output discipline: every re-queued URL passes the
playlist-suffix test; every newly stored entry fails it. -/
theorem parseAndStore_out (lines : List String) (src : String) (ps : ParseState) :
    (∀ u ∈ (parseAndStore lines src ps).2, m3uLineRequeue u = true) ∧
    (∀ gc ∈ storePairs (parseAndStore lines src ps).1.channels,
      gc ∈ storePairs ps.channels ∨ m3uLineRequeue gc.2.url = false) := by
  have := foldl_preserve (P := M3UOut ps) (f := m3uLine src)
    (fun a b ha => m3uLine_out src ps a b ha) lines
    { pending := none, ps := ps, requeue := [] }
    ⟨fun u hu => absurd hu (List.not_mem_nil u), fun gc hgc => Or.inl hgc⟩
  exact ⟨this.1, this.2⟩

/-- Invariant of the PLS emission loop, analogous to `M3UOut`. -/
def PlsOut (ps0 : ParseState) (acc : ParseState × List String) : Prop :=
  (∀ u ∈ acc.2, isRequeueSuffix u = true) ∧
  (∀ gc ∈ storePairs acc.1.channels,
    gc ∈ storePairs ps0.channels ∨ isRequeueSuffix gc.2.url = false)

/-- One PLS emission step preserves the output discipline. -/
theorem plsEmit_out (src : String) (ps0 : ParseState) (acc : ParseState × List String)
    (ent : String × PlsEntry) (h : PlsOut ps0 acc) : PlsOut ps0 (plsEmit src acc ent) := by
  simp only [plsEmit]
  split
  · exact h
  · split
    · next hD =>
      refine ⟨?_, h.2⟩
      intro x hx
      rcases List.mem_append.mp hx with hx | hx
      · exact h.1 x hx
      · rw [List.mem_singleton] at hx
        exact hx ▸ hD
    · next hD =>
      refine ⟨h.1, ?_⟩
      intro gc hgc
      rcases mem_storePairs_addChannelIfNew hgc with hgc | hgc
      · exact h.2 gc hgc
      · right
        rw [hgc]
        simpa using hD

/-- `parse_pls_content` output discipline. -/
theorem parsePlsContent_out (lines : List String) (src : String) (ps : ParseState) :
    (∀ u ∈ (parsePlsContent lines src ps).2, isRequeueSuffix u = true) ∧
    (∀ gc ∈ storePairs (parsePlsContent lines src ps).1.channels,
      gc ∈ storePairs ps.channels ∨ isRequeueSuffix gc.2.url = false) := by
  have := foldl_preserve (P := PlsOut ps) (f := plsEmit src)
    (fun a b ha => plsEmit_out src ps a b ha) (plsSort (lines.foldl plsCollect []))
    (ps, [])
    ⟨fun u hu => absurd hu (List.not_mem_nil u), fun gc hgc => Or.inl hgc⟩
  exact ⟨this.1, this.2⟩

/-- C2 — amended. URLs found by the M3U parser are re-queued exactly when
their path ends in `.m3u`/`.pls`/`.ashx` (never `.m3u8`), and stored
entries never carry a re-queue suffix; likewise for the PLS parser; but an
HTML-extracted link is enqueued by the scheduler whenever its path ends in
`.m3u`, `.m3u8`, `.pls`, or `.ashx` — so `.m3u8` is terminal for the two
playlist parsers yet re-queued when discovered in HTML. -/
theorem playlist_suffix_classification_amended :
    (∀ (lines : List String) (src : String) (ps : ParseState),
        ∀ u ∈ (parseAndStore lines src ps).2, m3uLineRequeue u = true) ∧
    (∀ (lines : List String) (src : String) (ps : ParseState),
        ∀ gc ∈ storePairs (parseAndStore lines src ps).1.channels,
          gc ∈ storePairs ps.channels ∨ m3uLineRequeue gc.2.url = false) ∧
    (∀ (lines : List String) (src : String) (ps : ParseState),
        ∀ u ∈ (parsePlsContent lines src ps).2, isRequeueSuffix u = true) ∧
    (∀ (lines : List String) (src : String) (ps : ParseState),
        ∀ gc ∈ storePairs (parsePlsContent lines src ps).1.channels,
          gc ∈ storePairs ps.channels ∨ isRequeueSuffix gc.2.url = false) ∧
    (∀ (links q v : List String) (x : String),
        x ∈ (enqueueAll isHtmlEnqueueSuffix links q v).1 →
          x ∈ q ∨ isHtmlEnqueueSuffix x = true) ∧
    (m3uLineRequeue "http://h/x.m3u8" = false ∧
      isRequeueSuffix "http://h/x.m3u8" = false ∧
      isHtmlEnqueueSuffix "http://h/x.m3u8" = true) := by
  refine ⟨fun lines src ps => (parseAndStore_out lines src ps).1,
    fun lines src ps => (parseAndStore_out lines src ps).2,
    fun lines src ps => (parsePlsContent_out lines src ps).1,
    fun lines src ps => (parsePlsContent_out lines src ps).2,
    fun links q v x hx => ?_, by decide⟩
  rcases (mem_enqueueAll isHtmlEnqueueSuffix links q v x).mp hx with hq | ⟨_, hg, _⟩
  · exact Or.inl hq
  · exact Or.inr hg

/-- Witness for `playlist_suffix_classification_amended` at concrete inputs. -/
theorem playlist_suffix_classification_amended_witness :
    m3uLineRequeue "http://x/a.pls" = true ∧ isRequeueSuffix "http://x/b.m3u" = true :=
  ⟨playlist_suffix_classification_amended.1 ["http://x/a.pls"] "http://s/r.m3u" ⟨[], []⟩
      "http://x/a.pls" (by decide),
   playlist_suffix_classification_amended.2.2.1 ["File1=http://x/b.m3u"] "http://s/r.pls"
      ⟨[], []⟩ "http://x/b.m3u" (by decide)⟩

/-- C5 — amended. For an HTML resource, an extracted link is enqueued if
and only if it was already queued or it passes the scheduler's playlist
suffix re-filter and the visited-set gate: the scheduler re-filters the
extractor's output rather than enqueueing it wholesale. -/
theorem scheduler_refilters_html_links (cands q v : List String) (x : String) :
    x ∈ (enqueueAll isHtmlEnqueueSuffix (extractStreamUrlsFromHtml cands) q v).1
      ↔ x ∈ q ∨ (x ∈ extractStreamUrlsFromHtml cands ∧ isHtmlEnqueueSuffix x = true ∧
          x ∉ v) :=
  mem_enqueueAll isHtmlEnqueueSuffix (extractStreamUrlsFromHtml cands) q v x

/-! ## Validator bookkeeping: keys and detail buckets of `urls_to_check_map` -/

/-- The keys of the URL map, in insertion order. -/
def mapKeys (m : List (String × Details)) : List String := m.map Prod.fst

/-- Adding a detail keeps the key list, or appends the fresh key. -/
theorem mapKeys_urlsMapAdd (m : List (String × Details)) (u : String)
    (d : String × Channel) :
    mapKeys (urlsMapAdd m u d)
      = if u ∈ mapKeys m then mapKeys m else mapKeys m ++ [u] := by
  induction m with
  | nil => simp [urlsMapAdd, mapKeys]
  | cons p t ih =>
    obtain ⟨k, ds⟩ := p
    by_cases hk : k = u
    · subst hk
      simp [urlsMapAdd, mapKeys]
    · simp only [urlsMapAdd, if_neg hk, mapKeys, List.map_cons] at ih ⊢
      by_cases hm : u ∈ List.map Prod.fst t <;>
        simp [ih, hm, List.mem_cons, Ne.symm hk]

/-- The URL map always has pairwise-distinct keys. -/
theorem buildUrlsMap_keys_nodup (store : Store) :
    (mapKeys (buildUrlsMap store)).Nodup := by
  unfold buildUrlsMap
  refine foldl_preserve (P := fun m => (mapKeys m).Nodup) ?_ (storePairs store) []
    (by simp [mapKeys])
  intro m gc h
  rw [mapKeys_urlsMapAdd]
  split
  · exact h
  · next hm => simp [List.nodup_append, h, hm]

/-- The detail bucket stored under a key (empty when absent). -/
def detailsOf : List (String × Details) → String → Details
  | [], _ => []
  | (k, ds) :: t, u => if k = u then ds else detailsOf t u

/-- Adding a detail appends to exactly its key's bucket. -/
theorem detailsOf_urlsMapAdd (m : List (String × Details)) (v : String)
    (d : String × Channel) (u : String) :
    detailsOf (urlsMapAdd m v d) u
      = if u = v then detailsOf m u ++ [d] else detailsOf m u := by
  induction m with
  | nil =>
    by_cases h : u = v
    · subst h
      simp [urlsMapAdd, detailsOf]
    · have hvu : ¬v = u := fun hh => h hh.symm
      simp [urlsMapAdd, detailsOf, h, hvu]
  | cons p t ih =>
    obtain ⟨k, ds⟩ := p
    by_cases hk : k = v
    · subst hk
      by_cases hu : k = u
      · subst hu
        simp [urlsMapAdd, detailsOf]
      · have huk : ¬u = k := fun hh => hu hh.symm
        simp [urlsMapAdd, detailsOf, hu, huk]
    · by_cases hu : k = u
      · subst hu
        simp [urlsMapAdd, detailsOf, hk]
      · simp [urlsMapAdd, detailsOf, hk, hu, ih]

/-- Bucket length after folding a pair list into the map: the old length
plus the number of pairs whose URL is the key. -/
theorem detailsOf_foldAdd (u : String) :
    ∀ (pairs : List (String × Channel)) (m0 : List (String × Details)),
      (detailsOf (pairs.foldl (fun m gc => urlsMapAdd m gc.2.url gc) m0) u).length
        = (detailsOf m0 u).length + pairs.countP (fun gc => gc.2.url == u)
  | [], m0 => by simp
  | gc :: t, m0 => by
    rw [List.foldl_cons, detailsOf_foldAdd u t (urlsMapAdd m0 gc.2.url gc),
      List.countP_cons, detailsOf_urlsMapAdd]
    by_cases h : u = gc.2.url
    · simp [h]
      omega
    · have hb : (gc.2.url == u) = false := by
        simp only [beq_eq_false_iff_ne, ne_eq]
        exact fun hh => h hh.symm
      simp [h, hb]

/-- Bucket length of the built URL map equals the multiplicity of the key
among the stored stream URLs. -/
theorem buildUrlsMap_details_length (store : Store) (u : String) :
    (detailsOf (buildUrlsMap store) u).length = (storeUrls store).count u := by
  unfold buildUrlsMap
  rw [detailsOf_foldAdd, storeUrls_eq_pairs]
  simp only [detailsOf, List.length_nil, Nat.zero_add]
  rw [List.count_eq_countP, List.countP_map]
  rfl

/-- Under distinct keys, a map member's bucket is what `detailsOf` returns. -/
theorem detailsOf_of_mem {m : List (String × Details)} {u : String} {ds : Details}
    (hnd : (mapKeys m).Nodup) (hm : (u, ds) ∈ m) : detailsOf m u = ds := by
  induction m with
  | nil => exact absurd hm (List.not_mem_nil _)
  | cons p t ih =>
    obtain ⟨k, es⟩ := p
    simp only [mapKeys, List.map_cons] at hnd
    rcases List.mem_cons.mp hm with he | hm2
    · obtain ⟨h1, h2⟩ := Prod.mk.injEq .. |>.mp he
      subst h1
      subst h2
      simp [detailsOf]
    · have hk : k ≠ u := by
        intro he2
        subst he2
        exact (List.nodup_cons.mp hnd).1
          (List.mem_map_of_mem Prod.fst hm2)
      simp only [detailsOf, if_neg hk]
      exact ih (List.nodup_cons.mp hnd).2 hm2

/-! ## Cache well-formedness: cached values carry their own key -/

/-- Every cache binding maps a URL to a pair whose second component is
that same URL (lines 102, 113, 119 always store `(flag, url)`). -/
def CacheWF (c : Cache) : Prop := ∀ p ∈ c, p.2.2 = p.1

/-- A found value carries the looked-up key. -/
theorem cacheFind_wf {c : Cache} {u : String} {v : Bool × String}
    (hw : CacheWF c) (h : cacheFind c u = some v) : v.2 = u := by
  induction c with
  | nil => simp [cacheFind] at h
  | cons p t ih =>
    obtain ⟨k, w⟩ := p
    by_cases hk : k = u
    · subst hk
      simp [cacheFind] at h
      subst h
      exact hw (k, w) (List.mem_cons_self _ _)
    · simp only [cacheFind, if_neg hk] at h
      exact ih (fun q hq => hw q (List.mem_cons_of_mem _ hq)) h

/-- Inserting a key-carrying value preserves cache well-formedness. -/
theorem cacheInsert_wf {c : Cache} {u : String} {v : Bool × String}
    (hw : CacheWF c) (hv : v.2 = u) : CacheWF (cacheInsert c u v) := by
  induction c with
  | nil =>
    intro p hp
    simp only [cacheInsert, List.mem_singleton] at hp
    subst hp
    exact hv
  | cons q t ih =>
    obtain ⟨k, w⟩ := q
    intro p hp
    by_cases hk : k = u
    · simp only [cacheInsert, if_pos hk] at hp
      rcases List.mem_cons.mp hp with hp | hp
      · subst hp
        exact hv.trans hk.symm
      · exact hw p (List.mem_cons_of_mem _ hp)
    · simp only [cacheInsert, if_neg hk] at hp
      rcases List.mem_cons.mp hp with hp | hp
      · subst hp
        exact hw (k, w) (List.mem_cons_self _ _)
      · exact ih (fun q2 hq2 => hw q2 (List.mem_cons_of_mem _ hq2)) p hp

/-- The two possible outcomes of `check_link_active`: a cache hit returns
the stored value unchanged, a miss returns `(flag, url)` and caches it. -/
theorem checkLinkActive_cases (probe : ProbeOracle) (cache : Cache) (url : String) :
    (cacheFind cache url = some (checkLinkActive probe cache url).1 ∧
      (checkLinkActive probe cache url).2 = cache) ∨
    (cacheFind cache url = none ∧
      ∃ b : Bool, (checkLinkActive probe cache url).1 = (b, url) ∧
        (checkLinkActive probe cache url).2 = cacheInsert cache url (b, url)) := by
  unfold checkLinkActive
  cases h : cacheFind cache url with
  | some r => exact Or.inl ⟨rfl, rfl⟩
  | none =>
    right
    refine ⟨rfl, ?_⟩
    by_cases h1 : headOk probe url
    · rw [if_pos h1]
      exact ⟨true, rfl, rfl⟩
    · rw [if_neg h1]
      by_cases h2 : getOk probe url
      · rw [if_pos h2]
        exact ⟨true, rfl, rfl⟩
      · rw [if_neg h2]
        exact ⟨false, rfl, rfl⟩

/-- `check_link_active` returns the probed URL and keeps the cache
well-formed. -/
theorem checkLinkActive_wf (probe : ProbeOracle) (url : String) {cache : Cache}
    (hw : CacheWF cache) :
    (checkLinkActive probe cache url).1.2 = url ∧
      CacheWF (checkLinkActive probe cache url).2 := by
  rcases checkLinkActive_cases probe cache url with ⟨hf, hc⟩ | ⟨hf, b, h1, h2⟩
  · exact ⟨cacheFind_wf hw hf, by rw [hc]; exact hw⟩
  · refine ⟨by rw [h1], ?_⟩
    rw [h2]
    exact cacheInsert_wf hw rfl

/-! ## The validator merge preserves URL uniqueness -/

/-- Appending the (at most one) referencing entry of a live URL keeps the
rebuilt store's URLs duplicate-free and traceable. -/
theorem appendDetails_nodup {active : Store} {ds : Details} {u : String}
    (hds : ds.length ≤ 1) (hu : u ∉ storeUrls active)
    (hnd : (storeUrls active).Nodup) :
    (storeUrls (ds.foldl
        (fun a gc => storeAppend a gc.1 { gc.2 with url := u }) active)).Nodup ∧
    (∀ w ∈ storeUrls (ds.foldl
        (fun a gc => storeAppend a gc.1 { gc.2 with url := u }) active),
      w = u ∨ w ∈ storeUrls active) := by
  rcases ds with _ | ⟨gc, ds2⟩
  · exact ⟨hnd, fun w hw => Or.inr hw⟩
  · rcases ds2 with _ | ⟨gc2, ds3⟩
    · simp only [List.foldl_cons, List.foldl_nil]
      have hperm := storeUrls_storeAppend active gc.1 { gc.2 with url := u }
      constructor
      · exact hperm.nodup_iff.mpr (List.nodup_cons.mpr ⟨hu, hnd⟩)
      · intro w hw
        rcases List.mem_cons.mp (hperm.mem_iff.mp hw) with h | h
        · exact Or.inl h
        · exact Or.inr h
    · exact absurd hds (by simp)

/-- The result-collection loop keeps URLs duplicate-free, given distinct
keys, per-key buckets of at most one entry, and an accumulator disjoint
from the remaining keys. -/
theorem runChecks_nodup (probe : ProbeOracle) :
    ∀ (m : List (String × Details)) (active : Store) (cache : Cache),
      CacheWF cache →
      (mapKeys m).Nodup →
      (∀ p ∈ m, p.2.length ≤ 1) →
      (∀ w ∈ storeUrls active, w ∉ mapKeys m) →
      (storeUrls active).Nodup →
      (storeUrls (runChecks probe m (active, cache)).1).Nodup
  | [], _, _, _, _, _, _, hnd => hnd
  | (u, ds) :: t, active, cache, hw, hknd, hlen, hdis, hnd => by
    simp only [runChecks]
    have hwf := checkLinkActive_wf probe u hw
    have hds : ds.length ≤ 1 := hlen (u, ds) (List.mem_cons_self _ _)
    have hcons : mapKeys ((u, ds) :: t) = u :: mapKeys t := rfl
    rw [hcons] at hknd hdis
    have hkt : u ∉ mapKeys t := (List.nodup_cons.mp hknd).1
    have hknd2 : (mapKeys t).Nodup := (List.nodup_cons.mp hknd).2
    have hu0 : u ∉ storeUrls active :=
      fun hm => hdis u hm (List.mem_cons_self _ _)
    rw [hwf.1]
    refine runChecks_nodup probe t _ _ hwf.2 hknd2
      (fun p hp => hlen p (List.mem_cons_of_mem _ hp)) ?_ ?_
    · intro w hw2
      revert hw2
      split
      · intro hw2
        rcases (appendDetails_nodup hds hu0 hnd).2 w hw2 with h | h
        · exact h ▸ hkt
        · exact fun hk => hdis w h (List.mem_cons_of_mem _ hk)
      · intro hw2
        exact fun hk => hdis w hw2 (List.mem_cons_of_mem _ hk)
    · split
      · exact (appendDetails_nodup hds hu0 hnd).1
      · exact hnd

/-- The validation pass preserves URL uniqueness of the store. -/
theorem filterActiveChannels_nodup (checkLinks : Bool) (probe : ProbeOracle)
    (store : Store) (h : (storeUrls store).Nodup) :
    (storeUrls (filterActiveChannels checkLinks probe [] store).1).Nodup := by
  unfold filterActiveChannels
  cases checkLinks with
  | false => simpa using h
  | true =>
    simp only [Bool.not_true, Bool.false_eq_true, if_false]
    split
    · exact List.nodup_nil
    · refine runChecks_nodup probe (buildUrlsMap store) [] []
        (fun p hp => absurd hp (List.not_mem_nil p))
        (buildUrlsMap_keys_nodup store) ?_
        (fun w hw => absurd hw (List.not_mem_nil w)) List.nodup_nil
      intro p hp
      have hd := detailsOf_of_mem (buildUrlsMap_keys_nodup store) hp
      have := buildUrlsMap_details_length store p.1
      rw [hd] at this
      rw [this]
      exact List.nodup_iff_count_le_one.mp h p.1

/-! ## C1: stream URL uniqueness across the whole run -/

/-- C1 — confirmed. At every point of every run (any fuel, any oracles) no
two stored entries share a stream URL, and the store published by
`process_sources` — after the validator merge when validation is on —
keeps its stream URLs pairwise distinct: both parsers drop second and
later occurrences through the `seen_urls` gate, and the validator rebuild
probes each unique URL once and copies its at-most-one referencing entry. -/
theorem store_streamURL_unique :
    (∀ (oracle hrefs : String → List String) (fuel : Nat) (seeds : List String),
        (storeUrls (crawlLoop oracle hrefs fuel (initCrawl seeds)).ps.channels).Nodup) ∧
    (∀ (checkLinks : Bool) (oracle hrefs : String → List String) (probe : ProbeOracle)
        (fuel : Nat) (seeds : List String),
        (storeUrls (processSources checkLinks oracle hrefs probe fuel seeds).2).Nodup) := by
  have hcrawl : ∀ (oracle hrefs : String → List String) (fuel : Nat) (seeds : List String),
      SInv (crawlLoop oracle hrefs fuel (initCrawl seeds)).ps :=
    fun oracle hrefs fuel seeds =>
      crawlLoop_preserve_ps SInv SInv_addChannelIfNew oracle hrefs fuel (initCrawl seeds)
        ⟨List.nodup_nil, fun u hu => absurd hu (List.not_mem_nil u)⟩
  refine ⟨fun o h f s => (hcrawl o h f s).1, fun cl o h p f s => ?_⟩
  simp only [processSources]
  split
  · exact (hcrawl o h f s).1
  · exact filterActiveChannels_nodup cl p _ (hcrawl o h f s).1

/-! ## C10: categories are never empty -/

/-- The result-collection loop never creates an empty category. -/
theorem runChecks_allNonempty (probe : ProbeOracle) :
    ∀ (m : List (String × Details)) (active : Store) (cache : Cache),
      AllNonempty active → AllNonempty (runChecks probe m (active, cache)).1
  | [], _, _, h => h
  | (u, ds) :: t, active, cache, h => by
    simp only [runChecks]
    refine runChecks_allNonempty probe t _ _ ?_
    split
    · exact foldl_preserve (P := AllNonempty)
        (fun a gc ha => allNonempty_storeAppend gc.1 _ ha) ds active h
    · exact h

/-- The validation pass never creates an empty category. -/
theorem filterActiveChannels_allNonempty (checkLinks : Bool) (probe : ProbeOracle)
    (cache : Cache) (store : Store) (h : AllNonempty store) :
    AllNonempty (filterActiveChannels checkLinks probe cache store).1 := by
  unfold filterActiveChannels
  cases checkLinks with
  | false => simpa using h
  | true =>
    simp only [Bool.not_true, Bool.false_eq_true, if_false]
    split
    · exact fun p hp => absurd hp (List.not_mem_nil p)
    · exact runChecks_allNonempty probe (buildUrlsMap store) [] cache
        (fun p hp => absurd hp (List.not_mem_nil p))

/-- C10 — confirmed. At every point of every run, and in the store
published by `process_sources`, every category key maps to a non-empty
entry list: keys are created only by appending an entry, and the
validator's rebuilt store gains a key only when a live entry is appended. -/
theorem categories_nonempty :
    (∀ (oracle hrefs : String → List String) (fuel : Nat) (seeds : List String),
        ((crawlLoop oracle hrefs fuel (initCrawl seeds)).ps.channels.all
          (fun p => !p.2.isEmpty)) = true) ∧
    (∀ (checkLinks : Bool) (oracle hrefs : String → List String) (probe : ProbeOracle)
        (fuel : Nat) (seeds : List String),
        ((processSources checkLinks oracle hrefs probe fuel seeds).2.all
          (fun p => !p.2.isEmpty)) = true) := by
  have hconv : ∀ s : Store, AllNonempty s → (s.all (fun p => !p.2.isEmpty)) = true := by
    intro s hs
    rw [List.all_eq_true]
    intro p hp
    simpa using hs p hp
  have hcrawl : ∀ (oracle hrefs : String → List String) (fuel : Nat) (seeds : List String),
      AllNonempty (crawlLoop oracle hrefs fuel (initCrawl seeds)).ps.channels :=
    fun oracle hrefs fuel seeds =>
      crawlLoop_preserve_ps (fun ps => AllNonempty ps.channels)
        (fun ps ch hh => allNonempty_addChannelIfNew ps ch hh) oracle hrefs fuel
        (initCrawl seeds) (fun p hp => absurd hp (List.not_mem_nil p))
  refine ⟨fun o h f s => hconv _ (hcrawl o h f s), fun cl o h p f s => ?_⟩
  refine hconv _ ?_
  simp only [processSources]
  split
  · exact hcrawl o h f s
  · exact filterActiveChannels_allNonempty cl p [] _ (hcrawl o h f s)
